import Mathlib

/-!
Shallow embedding of the `direct_ring_buffer` crate (`src/lib.rs`).

The Rust library is a single-producer single-consumer ring buffer built from

* `struct DirectRingBuffer<T> { elements: UnsafeCell<Box<[T]>>, used: AtomicUsize }`,
* per-handle private cursors (`Producer.index`, `Consumer.index`),
* a shared batch loop `process_slices`, the single-element fast paths
  `read_element` / `write_element`, and `create_ring_buffer`.

We model single-threaded executions, so the atomic `used` counter becomes a
plain `Nat`, the storage becomes a `List α`, and the per-handle cursors are
passed explicitly (mirroring the Rust `index: &mut usize` parameters).  The
uninitialized storage produced by `create_ring_buffer` is modelled as
`List.replicate size default`; the spec notes that unwritten slots are never
observable, so the choice of initial values is irrelevant.

Closures `FnMut(&mut [T], usize) -> usize` are modelled as pure functions
`List α → Nat → List α × Nat`: given the current contents of the offered
slice and the running offset, they return the slice's new contents together
with the reported count.  Read-side closures `FnMut(&[T], usize) -> usize`
cannot mutate and are lifted via `fun s o => (s, g s o)`.

The batch loop additionally records the trace of closure invocations (offset,
offered length, offered slice contents, returned count) so that claims about
"how often and with what arguments the closure is invoked" are statable.
-/

/-- Mirror of the Rust `DirectRingBuffer<T>` shared core: the fixed storage
and the `used` counter (an `AtomicUsize` in Rust, a `Nat` here since we model
single-threaded executions). -/
structure DirectRingBuffer (α : Type) where
  elements : List α
  used : Nat
deriving DecidableEq

namespace DirectRingBuffer

variable {α : Type}

/-- Mirror of `DirectRingBuffer::available_read`: the value of `used`. -/
def available_read (b : DirectRingBuffer α) : Nat := b.used

/-- Mirror of `DirectRingBuffer::available_write`: `elements.len() - used`
(truncated `Nat` subtraction, as in Rust `usize` arithmetic under the
invariant `used <= len`). -/
def available_write (b : DirectRingBuffer α) : Nat :=
  b.elements.length - b.used

/-- Mirror of `DirectRingBuffer::wraparound_index`:
`*index = if *index + advance >= len { 0 } else { *index + advance }`. -/
def wraparound_index (len idx advance : Nat) : Nat :=
  if len ≤ idx + advance then 0 else idx + advance

/-- Mirror of `DirectRingBuffer::read_element`.  Returns the read value (if
any), the new shared core, and the new per-handle cursor. -/
def read_element [Inhabited α] (b : DirectRingBuffer α) (idx : Nat) :
    Option α × DirectRingBuffer α × Nat :=
  if b.available_read = 0 then (none, b, idx)
  else
    (some (b.elements.getD idx default),
     ⟨b.elements, b.used - 1⟩,
     wraparound_index b.elements.length idx 1)

/-- Mirror of `DirectRingBuffer::write_element`.  Returns the success flag,
the new shared core, and the new per-handle cursor. -/
def write_element (b : DirectRingBuffer α) (idx : Nat) (v : α) :
    Bool × DirectRingBuffer α × Nat :=
  if b.available_write = 0 then (false, b, idx)
  else
    (true,
     ⟨b.elements.set idx v, b.used + 1⟩,
     wraparound_index b.elements.length idx 1)

/-- Record of one closure invocation inside `process_slices`: the running
offset passed to the closure, the offered run length, the contents of the
offered slice (before any mutation), and the count the closure returned. -/
structure CallRec (α : Type) where
  off : Nat
  len : Nat
  slice : List α
  done : Nat
deriving DecidableEq

/-- Overwrite the elements of `l` starting at position `start` with the
elements of `r` (out-of-range positions are ignored, as `List.set` is).
This models the closure mutating the offered sub-slice in place. -/
def setSeg (l : List α) (start : Nat) (r : List α) : List α :=
  match r with
  | [] => l
  | a :: r' => setSeg (l.set start a) (start + 1) r'

/-- Result of the loop inside `process_slices`: final storage contents, final
cursor, total processed count, and the trace of closure invocations. -/
structure LoopOut (α : Type) where
  elements : List α
  idx : Nat
  total : Nat
  calls : List (CallRec α)
deriving DecidableEq

/-- Mirror of the `while total_processed < max_size` loop of
`DirectRingBuffer::process_slices`.  `fuel` bounds the number of iterations;
`process_slices` supplies `maxSize + 1`, which is enough for every execution
the Rust code can perform (each non-final iteration advances
`total_processed` by at least one). -/
def processLoop (f : List α → Nat → List α × Nat) (maxSize : Nat) :
    Nat → List α → Nat → Nat → LoopOut α
  | 0, e, idx, total => ⟨e, idx, total, []⟩
  | fuel + 1, e, idx, total =>
    if total < maxSize then
      let pl := min (e.length - idx) (maxSize - total)
      let slice := (e.drop idx).take pl
      let res := f slice total
      let e' := setSeg e idx res.1
      let idx' := wraparound_index e.length idx res.2
      if res.2 < pl then
        ⟨e', idx', total + res.2, [⟨total, pl, slice, res.2⟩]⟩
      else
        let out := processLoop f maxSize fuel e' idx' (total + res.2)
        ⟨out.elements, out.idx, out.total, ⟨total, pl, slice, res.2⟩ :: out.calls⟩
    else ⟨e, idx, total, []⟩

/-- Result of `process_slices`: the new shared core, the new per-handle
cursor, the return value (`total_processed`), and the invocation trace. -/
structure SlicesOut (α : Type) where
  buffer : DirectRingBuffer α
  idx : Nat
  total : Nat
  calls : List (CallRec α)
deriving DecidableEq

/-- Mirror of `DirectRingBuffer::process_slices`.  `update_used` models the
`update_used(&self.used, total_processed)` callback (`fetch_add` for the
producer, `fetch_sub` for the consumer); it is applied exactly once, after
the loop, as in the Rust code. -/
def process_slices (b : DirectRingBuffer α) (idx available : Nat)
    (f : List α → Nat → List α × Nat) (max_size : Option Nat)
    (update_used : Nat → Nat → Nat) : SlicesOut α :=
  let maxSize := min (max_size.getD available) available
  let out := processLoop f maxSize (maxSize + 1) b.elements idx 0
  ⟨⟨out.elements, update_used b.used out.total⟩, out.idx, out.total, out.calls⟩

/-- Mirror of `Producer::write_slices`: computes `available()` and calls
`process_slices` with a release-ordered `fetch_add` as the publish step. -/
def write_slices (b : DirectRingBuffer α) (idx : Nat)
    (f : List α → Nat → List α × Nat) (max_size : Option Nat) : SlicesOut α :=
  process_slices b idx b.available_write f max_size (fun u p => u + p)

/-- Mirror of `Consumer::read_slices`: computes `available()` and calls
`process_slices` with a release-ordered `fetch_sub` as the publish step.
The consumer closure receives an immutable slice, hence cannot mutate it. -/
def read_slices (b : DirectRingBuffer α) (idx : Nat)
    (f : List α → Nat → Nat) (max_size : Option Nat) : SlicesOut α :=
  process_slices b idx b.available_read (fun s o => (s, f s o)) max_size
    (fun u p => u - p)

end DirectRingBuffer

/-- Mirror of `create_ring_buffer`: storage of `size` elements (uninitialized
in Rust, modelled by `default` values, which are never observable), with
`used = 0`.  Both handles start with cursor `0`. -/
def create_ring_buffer (α : Type) [Inhabited α] (size : Nat) :
    DirectRingBuffer α :=
  ⟨List.replicate size default, 0⟩

/-- Combined single-threaded system state: the shared core plus the two
private cursors (`Producer.index` and `Consumer.index`). -/
structure SysState (α : Type) where
  buf : DirectRingBuffer α
  prodIdx : Nat
  consIdx : Nat
deriving DecidableEq

/-- State produced by `create_ring_buffer(n)`: fresh core, both cursors 0. -/
def initState (α : Type) [Inhabited α] (n : Nat) : SysState α :=
  ⟨create_ring_buffer α n, 0, 0⟩

/-- Abstraction function: the logical FIFO contents of the buffer, i.e. the
`u` valid elements starting at cursor `c`, in ring order. -/
def contentAt [Inhabited α] (e : List α) (c u : Nat) : List α :=
  (List.range u).map (fun i => e.getD ((c + i) % e.length) default)

/-- Logical FIFO contents of a system state. -/
def contentOf [Inhabited α] (s : SysState α) : List α :=
  contentAt s.buf.elements s.consIdx s.buf.used

/-- The producer closure used for the FIFO claim: it copies the next values
of `vs` into the offered slice (starting at the running offset `o`) and
returns the count copied. -/
def copyClosure (vs : List α) : List α → Nat → List α × Nat :=
  fun slice o =>
    let cnt := min slice.length (vs.length - o)
    ((vs.drop o).take cnt ++ slice.drop cnt, cnt)

/-- The consumer closure used for the FIFO claim: it reads (records) the whole
offered slice and returns its length. -/
def readAllClosure : List α → Nat → Nat := fun s _ => s.length

/-- Operations of a single-threaded execution, as in claim C1: element writes,
element reads, batch writes that copy a given value list, and batch reads
that consume everything they are offered. -/
inductive Op (α : Type) where
  | writeElem (v : α)
  | readElem
  | writeSlices (vs : List α) (max_size : Option Nat)
  | readSlices (max_size : Option Nat)

/-- One operation step: returns the new state, the values actually written by
this operation, and the values delivered to the reader by this operation. -/
def stepOp [Inhabited α] (s : SysState α) : Op α → SysState α × List α × List α
  | .writeElem v =>
    let r := s.buf.write_element s.prodIdx v
    (⟨r.2.1, r.2.2, s.consIdx⟩, if r.1 then [v] else [], [])
  | .readElem =>
    let r := s.buf.read_element s.consIdx
    (⟨r.2.1, s.prodIdx, r.2.2⟩, [],
     match r.1 with
     | some v => [v]
     | none => [])
  | .writeSlices vs mx =>
    let r := s.buf.write_slices s.prodIdx (copyClosure vs) mx
    (⟨r.buffer, r.idx, s.consIdx⟩, vs.take r.total, [])
  | .readSlices mx =>
    let r := s.buf.read_slices s.consIdx readAllClosure mx
    (⟨r.buffer, s.prodIdx, r.idx⟩, [],
     (r.calls.map (fun c => c.slice.take c.done)).flatten)

/-- Run a sequence of operations, accumulating the written and read values. -/
def runOps [Inhabited α] (s : SysState α) : List (Op α) → SysState α × List α × List α
  | [] => (s, [], [])
  | op :: ops =>
    let r := stepOp s op
    let rest := runOps r.1 ops
    (rest.1, r.2.1 ++ rest.2.1, r.2.2 ++ rest.2.2)

/-- A producer closure respects the documented contract when it reports at
most the length of the slice it was offered and keeps the slice's length
unchanged (as the Rust type `FnMut(&mut [T], usize) -> usize` forces). -/
def GoodW (f : List α → Nat → List α × Nat) : Prop :=
  ∀ s o, (f s o).1.length = s.length ∧ (f s o).2 ≤ s.length

/-- A consumer closure respects the documented contract when it reports at
most the length of the slice it was offered. -/
def GoodR (f : List α → Nat → Nat) : Prop :=
  ∀ s o, f s o ≤ s.length

/-- One step of the general (arbitrary contract-respecting closures)
single-threaded transition relation over system states. -/
inductive SysStep [Inhabited α] : SysState α → SysState α → Prop where
  | writeElem (s : SysState α) (v : α) :
      SysStep s ⟨(s.buf.write_element s.prodIdx v).2.1,
                 (s.buf.write_element s.prodIdx v).2.2, s.consIdx⟩
  | readElem (s : SysState α) :
      SysStep s ⟨(s.buf.read_element s.consIdx).2.1, s.prodIdx,
                 (s.buf.read_element s.consIdx).2.2⟩
  | writeSlices (s : SysState α) (f : List α → Nat → List α × Nat)
      (mx : Option Nat) (hf : GoodW f) :
      SysStep s ⟨(s.buf.write_slices s.prodIdx f mx).buffer,
                 (s.buf.write_slices s.prodIdx f mx).idx, s.consIdx⟩
  | readSlices (s : SysState α) (f : List α → Nat → Nat)
      (mx : Option Nat) (hf : GoodR f) :
      SysStep s ⟨(s.buf.read_slices s.consIdx f mx).buffer, s.prodIdx,
                 (s.buf.read_slices s.consIdx f mx).idx⟩

/-- Reachability from the state produced by `create_ring_buffer n` under any
single-threaded sequence of contract-respecting operations. -/
def Reachable [Inhabited α] (n : Nat) (s : SysState α) : Prop :=
  Relation.ReflTransGen SysStep (initState α n) s

/-- Structural invariant of a system state used by the simulation proof:
the used count fits, the consumer cursor is in range, and the producer cursor
sits exactly `used` slots (mod capacity) after the consumer cursor. -/
def InvS {α : Type} (s : SysState α) : Prop :=
  s.buf.used ≤ s.buf.elements.length ∧
  (0 < s.buf.elements.length →
      s.consIdx < s.buf.elements.length ∧
      s.prodIdx = (s.consIdx + s.buf.used) % s.buf.elements.length) ∧
  (s.buf.elements.length = 0 → s.prodIdx = 0 ∧ s.consIdx = 0)

/-- Invariant carried along `Reachable n`: capacity is fixed at `n`, the used
count never exceeds it, and both cursors stay inside `0..n`. -/
def InvR {α : Type} (n : Nat) (s : SysState α) : Prop :=
  s.buf.elements.length = n ∧
  s.buf.used ≤ n ∧
  (0 < n → s.prodIdx < n ∧ s.consIdx < n) ∧
  (n = 0 → s.prodIdx = 0 ∧ s.consIdx = 0)

open DirectRingBuffer

/-! ### Basic lemmas: `setSeg`, `wraparound_index`, modular index arithmetic -/

theorem setSeg_length (r : List α) : ∀ (l : List α) (s : Nat),
    (setSeg l s r).length = l.length := by
  induction r with
  | nil => intro l s; rfl
  | cons a r' ih => intro l s; simp [setSeg, ih, List.length_set]

theorem getD_set_ne {l : List α} {i j : Nat} (a d : α) (h : i ≠ j) :
    (l.set i a).getD j d = l.getD j d := by
  simp [List.getD_eq_getElem?_getD, List.getElem?_set, h]

theorem getD_setSeg_out (r : List α) : ∀ (l : List α) (s j : Nat) (d : α),
    (j < s ∨ s + r.length ≤ j) → (setSeg l s r).getD j d = l.getD j d := by
  induction r with
  | nil => intro l s j d _; rfl
  | cons a r' ih =>
    intro l s j d h
    simp only [List.length_cons] at h
    have h' : j < s + 1 ∨ (s + 1) + r'.length ≤ j := by omega
    have hne : s ≠ j := by omega
    rw [setSeg, ih (l.set s a) (s + 1) j d h', getD_set_ne a d hne]

theorem getD_setSeg_mid (r : List α) : ∀ (l : List α) (s k : Nat) (d : α),
    k < r.length → s + k < l.length →
    (setSeg l s r).getD (s + k) d = r.getD k d := by
  induction r with
  | nil => intro l s k d h _; simp at h
  | cons a r' ih =>
    intro l s k d hk hsk
    match k with
    | 0 =>
      rw [setSeg, getD_setSeg_out r' (l.set s a) (s + 1) (s + 0) d (Or.inl (by omega))]
      have hs : s < l.length := by omega
      simp [List.getD_eq_getElem?_getD, List.getElem?_set, hs]
    | k' + 1 =>
      rw [setSeg]
      have := ih (l.set s a) (s + 1) k' d (by simpa using hk)
        (by simp only [List.length_set]; omega)
      rw [show s + (k' + 1) = s + 1 + k' by omega, this]
      rfl

theorem setSeg_drop_take (L : Nat) : ∀ (e : List α) (s : Nat),
    setSeg e s ((e.drop s).take L) = e := by
  induction L with
  | zero => intro e s; simp [setSeg]
  | succ L' ih =>
    intro e s
    by_cases hs : s < e.length
    · rw [List.drop_eq_getElem_cons hs]
      simp only [List.take_succ_cons, setSeg]
      have hset : e.set s e[s] = e := by
        apply List.ext_getElem
        · simp
        · intro i h1 h2
          rw [List.getElem_set]
          split
          · rename_i heq; subst heq; rfl
          · rfl
      rw [hset]
      exact ih e (s + 1)
    · have hd : e.drop s = [] := List.drop_eq_nil_of_le (by omega)
      rw [hd]
      simp [setSeg]

theorem wraparound_eq_mod {len i a : Nat} (hlen : 0 < len) (h : i + a ≤ len) :
    wraparound_index len i a = (i + a) % len := by
  unfold wraparound_index
  split
  · have : i + a = len := by omega
    simp [this]
  · have : i + a < len := by omega
    rw [Nat.mod_eq_of_lt this]

theorem wraparound_lt {len i a : Nat} (hlen : 0 < len) :
    wraparound_index len i a < len := by
  unfold wraparound_index
  split
  · exact hlen
  · omega

theorem modCase {N x : Nat} (hN : 0 < N) (h : x < N + N) :
    (x < N ∧ x % N = x) ∨ (N ≤ x ∧ x % N = x - N) := by
  rcases Nat.lt_or_ge x N with hx | hx
  · exact Or.inl ⟨hx, Nat.mod_eq_of_lt hx⟩
  · refine Or.inr ⟨hx, ?_⟩
    rw [Nat.mod_eq_sub_mod hx, Nat.mod_eq_of_lt (by omega)]

/-! ### Lemmas about the content abstraction -/

theorem contentAt_length [Inhabited α] (e : List α) (c u : Nat) :
    (contentAt e c u).length = u := by
  simp [contentAt]

theorem contentAt_getElem [Inhabited α] (e : List α) (c u : Nat) (i : Nat)
    (h : i < (contentAt e c u).length) :
    (contentAt e c u)[i] = e.getD ((c + i) % e.length) default := by
  simp [contentAt]

theorem contentAt_zero [Inhabited α] (e : List α) (c : Nat) :
    contentAt e c 0 = [] := by
  simp [contentAt]

theorem contentAt_take [Inhabited α] (e : List α) (c : Nat) {k u : Nat}
    (hk : k ≤ u) : contentAt e c k = (contentAt e c u).take k := by
  unfold contentAt
  rw [← List.map_take, List.take_range, Nat.min_def]
  simp [hk]

theorem contentAt_drop [Inhabited α] (e : List α) {c k u : Nat}
    (hN : 0 < e.length) (hk : k ≤ u) :
    contentAt e ((c + k) % e.length) (u - k) = (contentAt e c u).drop k := by
  apply List.ext_getElem
  · simp [contentAt]
  · intro i h1 h2
    rw [contentAt_getElem _ _ _ _ h1, List.getElem_drop,
      contentAt_getElem _ _ _ _ (by simpa [contentAt_length] using
        (by simp [contentAt_length] at h2 ⊢; omega : k + i < u))]
    rw [Nat.mod_add_mod]
    congr 2
    omega

theorem slice_eq_map [Inhabited α] {e : List α} {s L : Nat} (h : s + L ≤ e.length) :
    (e.drop s).take L = (List.range L).map (fun i => e.getD (s + i) default) := by
  apply List.ext_getElem
  · simp; omega
  · intro i h1 h2
    rw [List.getElem_take, List.getElem_drop, List.getElem_map, List.getElem_range]
    exact (List.getD_eq_getElem e default (by simp at h1; omega)).symm

theorem contentAt_setSeg [Inhabited α] {e r : List α} {c u d : Nat}
    (hN : 0 < e.length) (hc : c < e.length)
    (hfit : u + r.length ≤ e.length)
    (hcont : (c + u) % e.length + r.length ≤ e.length)
    (hd : d ≤ r.length) :
    contentAt (setSeg e ((c + u) % e.length) r) c (u + d)
      = contentAt e c u ++ r.take d := by
  have hlen1 : (setSeg e ((c + u) % e.length) r).length = e.length :=
    setSeg_length r e _
  apply List.ext_getElem
  · simp only [contentAt_length, List.length_append, List.length_take]
    omega
  · intro i h1 h2
    have hi : i < u + d := by simpa [contentAt_length] using h1
    have hpN : (c + u) % e.length < e.length := Nat.mod_lt _ hN
    rw [contentAt_getElem _ _ _ _ h1, hlen1]
    by_cases hiu : i < u
    · have hdisj : (c + i) % e.length < (c + u) % e.length ∨
          (c + u) % e.length + r.length ≤ (c + i) % e.length := by
        rcases modCase hN (show c + i < e.length + e.length by omega) with
          ⟨h3, h4⟩ | ⟨h3, h4⟩ <;>
          rcases modCase hN (show c + u < e.length + e.length by omega) with
            ⟨h5, h6⟩ | ⟨h5, h6⟩ <;> omega
      rw [getD_setSeg_out r e _ _ default hdisj,
        List.getElem_append_left (by simp [contentAt_length]; omega),
        contentAt_getElem _ _ _ _ (by simp [contentAt_length]; omega)]
    · have hqe : (c + i) % e.length = (c + u) % e.length + (i - u) := by
        rcases modCase hN (show c + i < e.length + e.length by omega) with
          ⟨h3, h4⟩ | ⟨h3, h4⟩ <;>
          rcases modCase hN (show c + u < e.length + e.length by omega) with
            ⟨h5, h6⟩ | ⟨h5, h6⟩ <;> omega
      rw [hqe, getD_setSeg_mid r e _ _ default (by omega) (by omega),
        List.getElem_append_right (by simp [contentAt_length]; omega)]
      rw [List.getElem_take]
      simp only [contentAt_length]
      exact List.getD_eq_getElem r default
        (by simp [List.length_take] at h2; omega)

theorem contentAt_setSeg_frame [Inhabited α] {e r : List α} {c u u' : Nat}
    (hN : 0 < e.length) (hc : c < e.length) (hu : u ≤ u')
    (hfit : u' + r.length ≤ e.length)
    (hcont : (c + u') % e.length + r.length ≤ e.length) :
    contentAt (setSeg e ((c + u') % e.length) r) c u = contentAt e c u := by
  have hlen1 : (setSeg e ((c + u') % e.length) r).length = e.length :=
    setSeg_length r e _
  apply List.ext_getElem
  · simp [contentAt_length, hlen1]
  · intro i h1 h2
    have hi : i < u := by simpa [contentAt_length] using h1
    rw [contentAt_getElem _ _ _ _ h1, hlen1, contentAt_getElem _ _ _ _ h2]
    have hdisj : (c + i) % e.length < (c + u') % e.length ∨
        (c + u') % e.length + r.length ≤ (c + i) % e.length := by
      rcases modCase hN (show c + i < e.length + e.length by omega) with
        ⟨h3, h4⟩ | ⟨h3, h4⟩ <;>
        rcases modCase hN (show c + u' < e.length + e.length by omega) with
          ⟨h5, h6⟩ | ⟨h5, h6⟩ <;> omega
    rw [getD_setSeg_out r e _ _ default hdisj]

theorem processLoop_stop {f : List α → Nat → List α × Nat} {m t : Nat}
    (fuel : Nat) (e : List α) (idx : Nat) (h : ¬ t < m) :
    processLoop f m fuel e idx t = ⟨e, idx, t, []⟩ := by
  cases fuel with
  | zero => rfl
  | succ n => simp only [processLoop, if_neg h]

theorem processLoop_step (f : List α → Nat → List α × Nat) {m t : Nat}
    (n : Nat) (e : List α) (idx : Nat) (pl : Nat) (slice : List α)
    (res : List α × Nat) (hlt : t < m)
    (hpl : pl = min (e.length - idx) (m - t))
    (hslice : slice = (e.drop idx).take pl)
    (hres : res = f slice t) :
    processLoop f m (n + 1) e idx t =
      if res.2 < pl then
        ⟨setSeg e idx res.1, wraparound_index e.length idx res.2, t + res.2,
         [⟨t, pl, slice, res.2⟩]⟩
      else
        ⟨(processLoop f m n (setSeg e idx res.1)
            (wraparound_index e.length idx res.2) (t + res.2)).elements,
         (processLoop f m n (setSeg e idx res.1)
            (wraparound_index e.length idx res.2) (t + res.2)).idx,
         (processLoop f m n (setSeg e idx res.1)
            (wraparound_index e.length idx res.2) (t + res.2)).total,
         ⟨t, pl, slice, res.2⟩ ::
           (processLoop f m n (setSeg e idx res.1)
             (wraparound_index e.length idx res.2) (t + res.2)).calls⟩ := by
  subst hpl
  subst hslice
  subst hres
  simp only [processLoop, if_pos hlt]

theorem processLoop_length (f : List α → Nat → List α × Nat) (m : Nat) :
    ∀ (fuel : Nat) (e : List α) (idx t : Nat),
      (processLoop f m fuel e idx t).elements.length = e.length := by
  intro fuel
  induction fuel with
  | zero => intro e idx t; rfl
  | succ n ih =>
    intro e idx t
    by_cases hlt : t < m
    · rw [processLoop_step f n e idx _ _ _ hlt rfl rfl rfl]
      by_cases hbr : (f ((e.drop idx).take (min (e.length - idx) (m - t))) t).2
          < min (e.length - idx) (m - t)
      · rw [if_pos hbr]
        exact setSeg_length _ _ _
      · rw [if_neg hbr]
        dsimp only
        rw [ih, setSeg_length]
    · rw [processLoop_stop _ _ _ hlt]

theorem processLoop_total_sum (f : List α → Nat → List α × Nat) (m : Nat) :
    ∀ (fuel : Nat) (e : List α) (idx t : Nat),
      (processLoop f m fuel e idx t).total
        = t + ((processLoop f m fuel e idx t).calls.map CallRec.done).sum := by
  intro fuel
  induction fuel with
  | zero => intro e idx t; simp [processLoop]
  | succ n ih =>
    intro e idx t
    by_cases hlt : t < m
    · rw [processLoop_step f n e idx _ _ _ hlt rfl rfl rfl]
      by_cases hbr : (f ((e.drop idx).take (min (e.length - idx) (m - t))) t).2
          < min (e.length - idx) (m - t)
      · rw [if_pos hbr]
        simp
      · rw [if_neg hbr]
        dsimp only
        rw [ih]
        simp only [List.map_cons, List.sum_cons]
        omega
    · rw [processLoop_stop _ _ _ hlt]
      simp

theorem processLoop_short_stops (f : List α → Nat → List α × Nat) (m : Nat) :
    ∀ (fuel : Nat) (e : List α) (idx t : Nat) (cr : CallRec α),
      cr ∈ (processLoop f m fuel e idx t).calls.dropLast → cr.len ≤ cr.done := by
  intro fuel
  induction fuel with
  | zero => intro e idx t cr h; simp [processLoop] at h
  | succ n ih =>
    intro e idx t cr h
    by_cases hlt : t < m
    · rw [processLoop_step f n e idx _ _ _ hlt rfl rfl rfl] at h
      by_cases hbr : (f ((e.drop idx).take (min (e.length - idx) (m - t))) t).2
          < min (e.length - idx) (m - t)
      · rw [if_pos hbr] at h
        simp at h
      · rw [if_neg hbr] at h
        dsimp only at h
        rcases List.eq_nil_or_concat
            (processLoop f m n
              (setSeg e idx (f ((e.drop idx).take (min (e.length - idx) (m - t))) t).1)
              (wraparound_index e.length idx
                (f ((e.drop idx).take (min (e.length - idx) (m - t))) t).2)
              (t + (f ((e.drop idx).take (min (e.length - idx) (m - t))) t).2)).calls
          with hnil | ⟨l', b, hcc⟩
        · rw [hnil] at h
          simp at h
        · rw [List.dropLast_cons_of_ne_nil (by rw [hcc]; simp)] at h
          rcases List.mem_cons.mp h with hcr | hcr
          · subst hcr
            simp only [CallRec.len, CallRec.done]
            omega
          · exact ih _ _ _ cr hcr
    · rw [processLoop_stop _ _ _ hlt] at h
      simp at h

theorem processLoop_total_bounds {f : List α → Nat → List α × Nat} (hf : GoodW f)
    (m : Nat) : ∀ (fuel : Nat) (e : List α) (idx t : Nat), t ≤ m →
      t ≤ (processLoop f m fuel e idx t).total ∧
        (processLoop f m fuel e idx t).total ≤ m := by
  intro fuel
  induction fuel with
  | zero => intro e idx t ht; exact ⟨Nat.le_refl t, ht⟩
  | succ n ih =>
    intro e idx t ht
    by_cases hlt : t < m
    · rw [processLoop_step f n e idx _ _ _ hlt rfl rfl rfl]
      have hres2 := (hf ((e.drop idx).take (min (e.length - idx) (m - t))) t).2
      have hsll : ((e.drop idx).take (min (e.length - idx) (m - t))).length
          = min (min (e.length - idx) (m - t)) (e.length - idx) := by
        simp [List.length_take, List.length_drop]
      rw [hsll] at hres2
      by_cases hbr : (f ((e.drop idx).take (min (e.length - idx) (m - t))) t).2
          < min (e.length - idx) (m - t)
      · rw [if_pos hbr]
        dsimp only
        omega
      · rw [if_neg hbr]
        dsimp only
        have := ih (setSeg e idx (f ((e.drop idx).take (min (e.length - idx) (m - t))) t).1)
          (wraparound_index e.length idx
            (f ((e.drop idx).take (min (e.length - idx) (m - t))) t).2)
          (t + (f ((e.drop idx).take (min (e.length - idx) (m - t))) t).2)
          (by omega)
        omega
    · rw [processLoop_stop _ _ _ hlt]
      exact ⟨Nat.le_refl t, ht⟩

theorem processLoop_idx_lt (f : List α → Nat → List α × Nat) (m : Nat) :
    ∀ (fuel : Nat) (e : List α) (idx t : Nat), 0 < e.length → idx < e.length →
      (processLoop f m fuel e idx t).idx < e.length := by
  intro fuel
  induction fuel with
  | zero => intro e idx t _ h; exact h
  | succ n ih =>
    intro e idx t hN hidx
    by_cases hlt : t < m
    · rw [processLoop_step f n e idx _ _ _ hlt rfl rfl rfl]
      by_cases hbr : (f ((e.drop idx).take (min (e.length - idx) (m - t))) t).2
          < min (e.length - idx) (m - t)
      · rw [if_pos hbr]
        exact wraparound_lt hN
      · rw [if_neg hbr]
        dsimp only
        have h1 := setSeg_length
          (f ((e.drop idx).take (min (e.length - idx) (m - t))) t).1 e idx
        have := ih (setSeg e idx (f ((e.drop idx).take (min (e.length - idx) (m - t))) t).1)
          (wraparound_index e.length idx
            (f ((e.drop idx).take (min (e.length - idx) (m - t))) t).2)
          (t + (f ((e.drop idx).take (min (e.length - idx) (m - t))) t).2)
          (by rw [h1]; exact hN) (by rw [h1]; exact wraparound_lt hN)
        rwa [h1] at this
    · rw [processLoop_stop _ _ _ hlt]
      exact hidx

theorem processLoop_inv [Inhabited α] {f : List α → Nat → List α × Nat}
    (hf : GoodW f) (N c u m : Nat) (hN : 0 < N) (hc : c < N) (hum : u + m ≤ N) :
    ∀ (fuel : Nat) (e : List α) (t : Nat), e.length = N → t ≤ m →
      (processLoop f m fuel e ((c + (u + t)) % N) t).elements.length = N ∧
      t ≤ (processLoop f m fuel e ((c + (u + t)) % N) t).total ∧
      (processLoop f m fuel e ((c + (u + t)) % N) t).total ≤ m ∧
      (processLoop f m fuel e ((c + (u + t)) % N) t).idx
        = (c + (u + (processLoop f m fuel e ((c + (u + t)) % N) t).total)) % N ∧
      contentAt (processLoop f m fuel e ((c + (u + t)) % N) t).elements c u
        = contentAt e c u := by
  intro fuel
  induction fuel with
  | zero => intro e t he ht; exact ⟨he, Nat.le_refl t, ht, rfl, rfl⟩
  | succ n ih =>
    intro e t he ht
    subst he
    by_cases hlt : t < m
    · have hidx : (c + (u + t)) % e.length < e.length := Nat.mod_lt _ hN
      rw [processLoop_step f n e _ _ _ _ hlt rfl rfl rfl]
      set idx := (c + (u + t)) % e.length with hidxdef
      set pl := min (e.length - idx) (m - t) with hpl
      set slice := (e.drop idx).take pl with hslice
      set res := f slice t with hres
      have hsll : slice.length = pl := by
        rw [hslice, List.length_take, List.length_drop]
        omega
      have hr1 : res.1.length = pl := by
        rw [hres, (hf slice t).1, hsll]
      have hr2 : res.2 ≤ pl := by
        have := (hf slice t).2
        rw [hsll] at this
        rw [hres]
        exact this
      have hplm : pl ≤ m - t := by omega
      have hple : idx + pl ≤ e.length := by omega
      have hidx' : wraparound_index e.length idx res.2
          = (c + (u + (t + res.2))) % e.length := by
        rw [hidxdef, wraparound_eq_mod hN (by omega), Nat.mod_add_mod]
        congr 1
        omega
      have hframe : contentAt (setSeg e idx res.1) c u = contentAt e c u := by
        rw [hidxdef]
        exact contentAt_setSeg_frame hN hc (Nat.le_add_right u t) (by omega) (by omega)
      by_cases hbr : res.2 < pl
      · rw [if_pos hbr]
        dsimp only
        refine ⟨setSeg_length _ _ _, by omega, by omega, hidx', hframe⟩
      · rw [if_neg hbr]
        dsimp only
        rw [hidx']
        obtain ⟨H1, H2, H3, H4, H5⟩ := ih (setSeg e idx res.1) (t + res.2)
          (setSeg_length _ _ _) (by omega)
        exact ⟨H1, by omega, H3, H4, by rw [H5, hframe]⟩
    · rw [processLoop_stop _ _ _ hlt]
      exact ⟨rfl, Nat.le_refl t, ht, rfl, rfl⟩

theorem processLoop_copy [Inhabited α] (vs : List α) (N c u m : Nat)
    (hN : 0 < N) (hc : c < N) (hum : u + m ≤ N) :
    ∀ (fuel : Nat) (e : List α) (t : Nat), e.length = N → t ≤ m →
      t ≤ vs.length → m - t < fuel →
      (processLoop (copyClosure vs) m fuel e ((c + (u + t)) % N) t).elements.length = N ∧
      (processLoop (copyClosure vs) m fuel e ((c + (u + t)) % N) t).total
        = t + min (m - t) (vs.length - t) ∧
      (processLoop (copyClosure vs) m fuel e ((c + (u + t)) % N) t).idx
        = (c + (u + (processLoop (copyClosure vs) m fuel e
            ((c + (u + t)) % N) t).total)) % N ∧
      contentAt (processLoop (copyClosure vs) m fuel e ((c + (u + t)) % N) t).elements
          c (u + (processLoop (copyClosure vs) m fuel e ((c + (u + t)) % N) t).total)
        = contentAt e c (u + t)
            ++ (vs.drop t).take
                ((processLoop (copyClosure vs) m fuel e ((c + (u + t)) % N) t).total
                  - t) := by
  intro fuel
  induction fuel with
  | zero => intro e t he ht hv hfuel; omega
  | succ n ih =>
    intro e t he ht hv hfuel
    subst he
    by_cases hlt : t < m
    · have hidx : (c + (u + t)) % e.length < e.length := Nat.mod_lt _ hN
      rw [processLoop_step (copyClosure vs) n e _ _ _ _ hlt rfl rfl rfl]
      set idx := (c + (u + t)) % e.length with hidxdef
      set pl := min (e.length - idx) (m - t) with hpl
      set slice := (e.drop idx).take pl with hslice
      set res := copyClosure vs slice t with hres
      have hsll : slice.length = pl := by
        rw [hslice, List.length_take, List.length_drop]
        omega
      have hres2 : res.2 = min pl (vs.length - t) := by
        rw [hres]
        simp only [copyClosure]
        rw [hsll]
      have hres1 : res.1 = (vs.drop t).take res.2 ++ slice.drop res.2 := by
        conv_lhs => rw [hres]
        simp only [copyClosure]
        rw [hsll, ← hres2]
      have hcnt : res.2 ≤ pl := by omega
      have hplm : pl ≤ m - t := by omega
      have hple : idx + pl ≤ e.length := by omega
      have hr1len : res.1.length = pl := by
        rw [hres1]
        simp only [List.length_append, List.length_take, List.length_drop, hsll]
        omega
      have hidx' : wraparound_index e.length idx res.2
          = (c + (u + (t + res.2))) % e.length := by
        rw [hidxdef, wraparound_eq_mod hN (by omega), Nat.mod_add_mod]
        congr 1
        omega
      have htake : res.1.take res.2 = (vs.drop t).take res.2 := by
        rw [hres1, List.take_append_of_le_length
          (by rw [List.length_take, List.length_drop]; omega)]
        simp [List.take_take]
      have hcont1 : contentAt (setSeg e idx res.1) c (u + t + res.2)
          = contentAt e c (u + t) ++ (vs.drop t).take res.2 := by
        rw [hidxdef]
        rw [contentAt_setSeg hN hc (by omega) (by omega) (by omega)]
        rw [htake]
      rw [Nat.add_assoc] at hcont1
      by_cases hbr : res.2 < pl
      · rw [if_pos hbr]
        dsimp only
        refine ⟨setSeg_length _ _ _, by omega, hidx', ?_⟩
        rw [show t + res.2 - t = res.2 from by omega]
        exact hcont1
      · rw [if_neg hbr]
        dsimp only
        have hrpl : res.2 = pl := by omega
        rw [hidx']
        obtain ⟨H1, H2, H3, H4⟩ := ih (setSeg e idx res.1) (t + res.2)
          (setSeg_length _ _ _) (by omega) (by omega) (by omega)
        refine ⟨H1, by omega, H3, ?_⟩
        have hot : t + res.2
            ≤ (processLoop (copyClosure vs) m n (setSeg e idx res.1)
                ((c + (u + (t + res.2))) % e.length) (t + res.2)).total := by
          omega
        rw [H4, hcont1, List.append_assoc]
        congr 1
        rw [show (processLoop (copyClosure vs) m n (setSeg e idx res.1)
              ((c + (u + (t + res.2))) % e.length) (t + res.2)).total - t
            = res.2 + ((processLoop (copyClosure vs) m n (setSeg e idx res.1)
              ((c + (u + (t + res.2))) % e.length) (t + res.2)).total - (t + res.2))
          from by omega]
        rw [List.take_add, List.drop_drop]
    · rw [processLoop_stop _ _ _ hlt]
      dsimp only
      refine ⟨rfl, by omega, rfl, ?_⟩
      simp

theorem processLoop_readAll [Inhabited α] (N c u m : Nat)
    (hN : 0 < N) (hc : c < N) (hm : m ≤ u) (hu : u ≤ N) :
    ∀ (fuel : Nat) (e : List α) (t : Nat), e.length = N → t ≤ m → m - t < fuel →
      (processLoop (fun s o => (s, readAllClosure s o)) m fuel e
          ((c + t) % N) t).elements = e ∧
      (processLoop (fun s o => (s, readAllClosure s o)) m fuel e
          ((c + t) % N) t).total = m ∧
      (processLoop (fun s o => (s, readAllClosure s o)) m fuel e
          ((c + t) % N) t).idx = (c + m) % N ∧
      ((processLoop (fun s o => (s, readAllClosure s o)) m fuel e
          ((c + t) % N) t).calls.map (fun cr => cr.slice.take cr.done)).flatten
        = (List.range (m - t)).map (fun i => e.getD ((c + (t + i)) % N) default) := by
  intro fuel
  induction fuel with
  | zero => intro e t he ht hfuel; omega
  | succ n ih =>
    intro e t he ht hfuel
    subst he
    by_cases hlt : t < m
    · have hidx : (c + t) % e.length < e.length := Nat.mod_lt _ hN
      rw [processLoop_step _ n e _ _ _ _ hlt rfl rfl rfl]
      set idx := (c + t) % e.length with hidxdef
      set pl := min (e.length - idx) (m - t) with hpl
      set slice := (e.drop idx).take pl with hslice
      have hsll : slice.length = pl := by
        rw [hslice, List.length_take, List.length_drop]
        omega
      have hres2 : ((fun (s : List α) (o : Nat) => (s, readAllClosure s o)) slice t).2
          = pl := by
        simp only [readAllClosure]
        exact hsll
      have hres1 : ((fun (s : List α) (o : Nat) => (s, readAllClosure s o)) slice t).1
          = slice := rfl
      have hple : idx + pl ≤ e.length := by omega
      have hplm : pl ≤ m - t := by omega
      have hpl1 : 1 ≤ pl := by omega
      rw [hres1, hres2]
      have hset : setSeg e idx slice = e := by
        rw [hslice]
        exact setSeg_drop_take pl e idx
      rw [hset]
      have hidx' : wraparound_index e.length idx pl = (c + (t + pl)) % e.length := by
        rw [hidxdef, wraparound_eq_mod hN (by omega), Nat.mod_add_mod]
        congr 1
        omega
      rw [if_neg (by omega), hidx']
      obtain ⟨H1, H2, H3, H4⟩ := ih e (t + pl) rfl (by omega) (by omega)
      refine ⟨H1, H2, H3, ?_⟩
      dsimp only
      rw [List.map_cons, List.flatten_cons, H4]
      have hslice_take : slice.take pl = slice := by
        rw [← hsll]
        exact List.take_length slice
      rw [hslice_take]
      have hslice_map : slice = (List.range pl).map
          (fun i => e.getD ((c + (t + i)) % e.length) default) := by
        rw [hslice, slice_eq_map hple]
        refine List.map_congr_left ?_
        intro i hi
        rw [List.mem_range] at hi
        congr 1
        rw [hidxdef]
        have h1 : (c + t) % e.length + i < e.length := by omega
        calc (c + t) % e.length + i
            = ((c + t) % e.length + i) % e.length := (Nat.mod_eq_of_lt h1).symm
          _ = (c + t + i) % e.length := Nat.mod_add_mod _ _ _
          _ = (c + (t + i)) % e.length := by congr 1; omega
      rw [hslice_map]
      rw [show m - t = pl + (m - (t + pl)) from by omega, List.range_add,
        List.map_append, List.map_map]
      congr 1
      refine List.map_congr_left ?_
      intro i hi
      simp only [Function.comp]
      congr 2
      omega
    · rw [processLoop_stop _ _ _ hlt]
      dsimp only
      have htm : t = m := by omega
      subst htm
      refine ⟨rfl, rfl, rfl, ?_⟩
      simp

theorem setSeg_singleton (l : List α) (i : Nat) (v : α) :
    setSeg l i [v] = l.set i v := rfl

theorem initState_inv (α : Type) [Inhabited α] (n : Nat) : InvS (initState α n) := by
  refine ⟨by simp [initState, create_ring_buffer], ?_, by simp [initState]⟩
  intro hn
  simp [initState, create_ring_buffer] at hn ⊢
  omega

theorem write_element_sim [Inhabited α] (s : SysState α) (v : α) (h : InvS s) :
    InvS ⟨(s.buf.write_element s.prodIdx v).2.1,
          (s.buf.write_element s.prodIdx v).2.2, s.consIdx⟩ ∧
    contentOf ⟨(s.buf.write_element s.prodIdx v).2.1,
               (s.buf.write_element s.prodIdx v).2.2, s.consIdx⟩
      = contentOf s
          ++ (if (s.buf.write_element s.prodIdx v).1 then [v] else []) := by
  obtain ⟨h1, h2, h3⟩ := h
  by_cases hav : s.buf.available_write = 0
  · simp only [DirectRingBuffer.write_element, if_pos hav]
    exact ⟨⟨h1, h2, h3⟩, by simp⟩
  · have hN : 0 < s.buf.elements.length := by
      unfold DirectRingBuffer.available_write at hav
      omega
    have hu : s.buf.used < s.buf.elements.length := by
      unfold DirectRingBuffer.available_write at hav
      omega
    obtain ⟨hc, hp⟩ := h2 hN
    simp only [DirectRingBuffer.write_element, if_neg hav]
    have hpl : (s.buf.elements.set s.prodIdx v).length = s.buf.elements.length :=
      List.length_set _ _ _
    have hpm : (s.consIdx + s.buf.used) % s.buf.elements.length
        < s.buf.elements.length := Nat.mod_lt _ hN
    have hwr : wraparound_index s.buf.elements.length s.prodIdx 1
        = (s.consIdx + (s.buf.used + 1)) % s.buf.elements.length := by
      rw [hp, wraparound_eq_mod hN (by omega), Nat.mod_add_mod]
      congr 1
    constructor
    · unfold InvS
      dsimp only
      rw [hpl]
      refine ⟨by omega, ?_, by omega⟩
      intro _
      exact ⟨hc, hwr⟩
    · simp only [contentOf, if_pos rfl]
      show contentAt (s.buf.elements.set s.prodIdx v) s.consIdx (s.buf.used + 1)
        = contentAt s.buf.elements s.consIdx s.buf.used ++ [v]
      rw [← setSeg_singleton, hp]
      have := contentAt_setSeg (e := s.buf.elements) (r := [v]) (c := s.consIdx)
        (u := s.buf.used) (d := 1) hN hc (by simp; omega)
        (by simp; have := Nat.mod_lt (s.consIdx + s.buf.used) hN; omega)
        (by simp)
      simpa using this

theorem read_element_sim [Inhabited α] (s : SysState α) (h : InvS s) :
    InvS ⟨(s.buf.read_element s.consIdx).2.1, s.prodIdx,
          (s.buf.read_element s.consIdx).2.2⟩ ∧
    contentOf s
      = (match (s.buf.read_element s.consIdx).1 with
         | some v => [v]
         | none => [])
          ++ contentOf ⟨(s.buf.read_element s.consIdx).2.1, s.prodIdx,
                        (s.buf.read_element s.consIdx).2.2⟩ := by
  obtain ⟨h1, h2, h3⟩ := h
  by_cases hav : s.buf.available_read = 0
  · simp only [DirectRingBuffer.read_element, if_pos hav]
    exact ⟨⟨h1, h2, h3⟩, by simp⟩
  · have hu : 0 < s.buf.used := by
      unfold DirectRingBuffer.available_read at hav
      omega
    have hN : 0 < s.buf.elements.length := by omega
    obtain ⟨hc, hp⟩ := h2 hN
    simp only [DirectRingBuffer.read_element, if_neg hav]
    have hwr : wraparound_index s.buf.elements.length s.consIdx 1
        = (s.consIdx + 1) % s.buf.elements.length := by
      rw [wraparound_eq_mod hN (by omega)]
    constructor
    · unfold InvS
      dsimp only
      refine ⟨by omega, ?_, by omega⟩
      intro _
      refine ⟨by rw [hwr]; exact Nat.mod_lt _ hN, ?_⟩
      rw [hwr, Nat.mod_add_mod, hp]
      congr 1
      omega
    · show contentAt s.buf.elements s.consIdx s.buf.used
        = [s.buf.elements.getD s.consIdx default]
          ++ contentAt s.buf.elements
              (wraparound_index s.buf.elements.length s.consIdx 1)
              (s.buf.used - 1)
      rw [hwr, contentAt_drop s.buf.elements hN hu]
      have htk : contentAt s.buf.elements s.consIdx 1
          = [s.buf.elements.getD s.consIdx default] := by
        simp [contentAt, List.range_succ, Nat.mod_eq_of_lt hc]
      rw [show [s.buf.elements.getD s.consIdx default]
          = (contentAt s.buf.elements s.consIdx s.buf.used).take 1 from by
        rw [← contentAt_take s.buf.elements s.consIdx hu, htk]]
      rw [List.take_append_drop]

theorem process_slices_eq (b : DirectRingBuffer α) (idx available : Nat)
    (f : List α → Nat → List α × Nat) (mx : Option Nat)
    (upd : Nat → Nat → Nat) :
    DirectRingBuffer.process_slices b idx available f mx upd =
      ⟨⟨(processLoop f (min (mx.getD available) available)
            (min (mx.getD available) available + 1) b.elements idx 0).elements,
        upd b.used
          (processLoop f (min (mx.getD available) available)
            (min (mx.getD available) available + 1) b.elements idx 0).total⟩,
       (processLoop f (min (mx.getD available) available)
         (min (mx.getD available) available + 1) b.elements idx 0).idx,
       (processLoop f (min (mx.getD available) available)
         (min (mx.getD available) available + 1) b.elements idx 0).total,
       (processLoop f (min (mx.getD available) available)
         (min (mx.getD available) available + 1) b.elements idx 0).calls⟩ := rfl

theorem write_slices_sim [Inhabited α] (s : SysState α) (vs : List α)
    (mx : Option Nat) (h : InvS s) :
    InvS ⟨(s.buf.write_slices s.prodIdx (copyClosure vs) mx).buffer,
          (s.buf.write_slices s.prodIdx (copyClosure vs) mx).idx, s.consIdx⟩ ∧
    contentOf ⟨(s.buf.write_slices s.prodIdx (copyClosure vs) mx).buffer,
               (s.buf.write_slices s.prodIdx (copyClosure vs) mx).idx, s.consIdx⟩
      = contentOf s
          ++ vs.take (s.buf.write_slices s.prodIdx (copyClosure vs) mx).total := by
  obtain ⟨h1, h2, h3⟩ := h
  have hav : s.buf.available_write = s.buf.elements.length - s.buf.used := rfl
  unfold DirectRingBuffer.write_slices
  rw [process_slices_eq]
  by_cases hN : 0 < s.buf.elements.length
  · obtain ⟨hc, hp⟩ := h2 hN
    obtain ⟨H1, H2, H3, H4⟩ := processLoop_copy vs s.buf.elements.length s.consIdx
      s.buf.used (min (mx.getD s.buf.available_write) s.buf.available_write)
      hN hc (by omega)
      (min (mx.getD s.buf.available_write) s.buf.available_write + 1)
      s.buf.elements 0 rfl (Nat.zero_le _) (Nat.zero_le _) (by omega)
    simp only [Nat.add_zero, Nat.sub_zero, Nat.zero_add, List.drop_zero] at H1 H2 H3 H4
    rw [← hp] at H1 H2 H3 H4
    constructor
    · unfold InvS
      dsimp only
      refine ⟨by omega, ?_, by intro hh; omega⟩
      intro _
      rw [H1, H3]
      exact ⟨hc, rfl⟩
    · simp only [contentOf]
      rw [H4]
  · have hlen : s.buf.elements.length = 0 := by omega
    have hav0 : s.buf.available_write = 0 := by rw [hav]; omega
    rw [hav0]
    simp only [Nat.min_zero]
    rw [processLoop_stop _ _ _ (by omega)]
    constructor
    · unfold InvS
      dsimp only
      refine ⟨by omega, by intro hh; omega, ?_⟩
      intro hh
      exact h3 hlen
    · simp [contentOf]

theorem read_slices_sim [Inhabited α] (s : SysState α)
    (mx : Option Nat) (h : InvS s) :
    InvS ⟨(s.buf.read_slices s.consIdx readAllClosure mx).buffer, s.prodIdx,
          (s.buf.read_slices s.consIdx readAllClosure mx).idx⟩ ∧
    contentOf s
      = ((s.buf.read_slices s.consIdx readAllClosure mx).calls.map
            (fun cr => cr.slice.take cr.done)).flatten
          ++ contentOf ⟨(s.buf.read_slices s.consIdx readAllClosure mx).buffer,
                        s.prodIdx,
                        (s.buf.read_slices s.consIdx readAllClosure mx).idx⟩ := by
  obtain ⟨h1, h2, h3⟩ := h
  have hav : s.buf.available_read = s.buf.used := rfl
  unfold DirectRingBuffer.read_slices
  rw [process_slices_eq]
  by_cases hN : 0 < s.buf.elements.length
  · obtain ⟨hc, hp⟩ := h2 hN
    have hm : min (mx.getD s.buf.available_read) s.buf.available_read ≤ s.buf.used := by
      omega
    obtain ⟨H1, H2, H3, H4⟩ := processLoop_readAll s.buf.elements.length s.consIdx
      s.buf.used (min (mx.getD s.buf.available_read) s.buf.available_read)
      hN hc hm h1
      (min (mx.getD s.buf.available_read) s.buf.available_read + 1)
      s.buf.elements 0 rfl (Nat.zero_le _) (by omega)
    simp only [Nat.add_zero, Nat.sub_zero, Nat.zero_add] at H1 H2 H3 H4
    rw [Nat.mod_eq_of_lt hc] at H1 H2 H3 H4
    have hcm : (s.consIdx + min (mx.getD s.buf.available_read) s.buf.available_read)
        % s.buf.elements.length < s.buf.elements.length := Nat.mod_lt _ hN
    constructor
    · unfold InvS
      dsimp only
      have hlen : (processLoop (fun l o => (l, readAllClosure l o))
          (min (mx.getD s.buf.available_read) s.buf.available_read)
          (min (mx.getD s.buf.available_read) s.buf.available_read + 1)
          s.buf.elements s.consIdx 0).elements.length = s.buf.elements.length := by
        rw [H1]
      refine ⟨by omega, ?_, by intro hh; omega⟩
      intro _
      rw [hlen, H3, H2]
      refine ⟨hcm, ?_⟩
      rw [Nat.mod_add_mod, hp]
      congr 1
      omega
    · simp only [contentOf]
      rw [H4, H2, H1]
      have hflat : (List.range (min (mx.getD s.buf.available_read)
            s.buf.available_read)).map
            (fun i => s.buf.elements.getD
              ((s.consIdx + i) % s.buf.elements.length) default)
          = contentAt s.buf.elements s.consIdx
              (min (mx.getD s.buf.available_read) s.buf.available_read) := rfl
      rw [hflat, H3, contentAt_take s.buf.elements s.consIdx hm,
        contentAt_drop s.buf.elements hN hm, List.take_append_drop]
  · have hlen : s.buf.elements.length = 0 := by omega
    have hu0 : s.buf.used = 0 := by omega
    have hav0 : s.buf.available_read = 0 := by rw [hav]; exact hu0
    rw [hav0]
    simp only [Nat.min_zero]
    rw [processLoop_stop _ _ _ (by omega)]
    constructor
    · unfold InvS
      dsimp only
      refine ⟨by omega, by intro hh; omega, ?_⟩
      intro hh
      exact h3 hlen
    · simp [contentOf]

theorem stepOp_sim [Inhabited α] (s : SysState α) (op : Op α) (h : InvS s) :
    InvS (stepOp s op).1 ∧
    contentOf s ++ (stepOp s op).2.1
      = (stepOp s op).2.2 ++ contentOf (stepOp s op).1 := by
  cases op with
  | writeElem v =>
    obtain ⟨hI, hC⟩ := write_element_sim s v h
    refine ⟨hI, ?_⟩
    dsimp only [stepOp]
    rw [hC]
    simp
  | readElem =>
    obtain ⟨hI, hC⟩ := read_element_sim s h
    refine ⟨hI, ?_⟩
    dsimp only [stepOp]
    rw [List.append_nil]
    exact hC
  | writeSlices vs mx =>
    obtain ⟨hI, hC⟩ := write_slices_sim s vs mx h
    refine ⟨hI, ?_⟩
    dsimp only [stepOp]
    rw [hC]
    simp
  | readSlices mx =>
    obtain ⟨hI, hC⟩ := read_slices_sim s mx h
    refine ⟨hI, ?_⟩
    dsimp only [stepOp]
    rw [List.append_nil]
    exact hC

theorem runOps_sim [Inhabited α] (ops : List (Op α)) :
    ∀ (s : SysState α), InvS s →
      InvS (runOps s ops).1 ∧
      contentOf s ++ (runOps s ops).2.1
        = (runOps s ops).2.2 ++ contentOf (runOps s ops).1 := by
  induction ops with
  | nil => intro s h; exact ⟨h, by simp [runOps]⟩
  | cons op ops ih =>
    intro s h
    obtain ⟨hI, hC⟩ := stepOp_sim s op h
    obtain ⟨hI2, hC2⟩ := ih (stepOp s op).1 hI
    refine ⟨hI2, ?_⟩
    dsimp only [runOps]
    rw [← List.append_assoc, hC, List.append_assoc, hC2, List.append_assoc]

/-- Claim C1 (FIFO, no loss, no duplication): for every capacity `n` and every
single-threaded sequence of producer writes (`write_slices` with a closure
that copies given values and returns the count copied, or `write_element`)
interleaved with consumer reads (`read_slices` or `read_element`), the
sequence of values written equals, in order, the sequence of values delivered
to the reads followed by the values still held in the buffer: reads deliver
exactly the written values in FIFO order, with no element skipped, repeated,
or reordered, and the not-yet-read remainder is exactly the buffer content. -/
theorem claim_C1_fifo_no_loss {α : Type} [Inhabited α] (n : Nat)
    (ops : List (Op α)) :
    (runOps (initState α n) ops).2.1
      = (runOps (initState α n) ops).2.2
          ++ contentOf (runOps (initState α n) ops).1 := by
  obtain ⟨hI, hC⟩ := runOps_sim ops (initState α n) (initState_inv α n)
  have h0 : contentOf (initState α n) = [] := by
    simp [contentOf, initState, create_ring_buffer, contentAt]
  rw [h0] at hC
  simpa using hC

theorem GoodW_lift {f : List α → Nat → Nat} (hf : GoodR f) :
    GoodW (fun s o => (s, f s o)) := fun s o => ⟨rfl, hf s o⟩

theorem initState_invR (α : Type) [Inhabited α] (n : Nat) :
    InvR n (initState α n) := by
  refine ⟨by simp [initState, create_ring_buffer], by simp [initState, create_ring_buffer], ?_, ?_⟩
  · intro hn
    exact ⟨hn, hn⟩
  · intro _
    exact ⟨rfl, rfl⟩

theorem sysStep_invR [Inhabited α] {n : Nat} {s s' : SysState α}
    (h : InvR n s) (hs : SysStep s s') : InvR n s' := by
  obtain ⟨hl, hu, hidx, h0⟩ := h
  cases hs with
  | writeElem v =>
    by_cases hav : s.buf.available_write = 0
    · unfold InvR
      simp only [DirectRingBuffer.write_element, if_pos hav]
      exact ⟨hl, hu, hidx, h0⟩
    · have hN : 0 < s.buf.elements.length := by
        unfold DirectRingBuffer.available_write at hav
        omega
      have hn : 0 < n := by omega
      have hwlt := @wraparound_lt s.buf.elements.length s.prodIdx 1 hN
      have husm : s.buf.used < s.buf.elements.length := by
        unfold DirectRingBuffer.available_write at hav
        omega
      unfold InvR
      simp only [DirectRingBuffer.write_element, if_neg hav]
      refine ⟨by simp [hl], by omega, ?_, by omega⟩
      intro _
      exact ⟨by omega, (hidx hn).2⟩
  | readElem =>
    by_cases hav : s.buf.available_read = 0
    · unfold InvR
      simp only [DirectRingBuffer.read_element, if_pos hav]
      exact ⟨hl, hu, hidx, h0⟩
    · have hu0 : 0 < s.buf.used := by
        unfold DirectRingBuffer.available_read at hav
        omega
      have hN : 0 < s.buf.elements.length := by omega
      have hn : 0 < n := by omega
      have hwlt := @wraparound_lt s.buf.elements.length s.consIdx 1 hN
      unfold InvR
      simp only [DirectRingBuffer.read_element, if_neg hav]
      refine ⟨hl, by omega, ?_, by omega⟩
      intro _
      exact ⟨(hidx hn).1, by omega⟩
  | writeSlices f mx hf =>
    have hb := processLoop_total_bounds hf
      (min (mx.getD s.buf.available_write) s.buf.available_write)
      (min (mx.getD s.buf.available_write) s.buf.available_write + 1)
      s.buf.elements s.prodIdx 0 (Nat.zero_le _)
    have hlen := processLoop_length f
      (min (mx.getD s.buf.available_write) s.buf.available_write)
      (min (mx.getD s.buf.available_write) s.buf.available_write + 1)
      s.buf.elements s.prodIdx 0
    have havw : s.buf.available_write = s.buf.elements.length - s.buf.used := rfl
    unfold InvR
    unfold DirectRingBuffer.write_slices
    rw [process_slices_eq]
    dsimp only
    refine ⟨by omega, by omega, ?_, ?_⟩
    · intro hn
      refine ⟨?_, (hidx hn).2⟩
      have := processLoop_idx_lt f
        (min (mx.getD s.buf.available_write) s.buf.available_write)
        (min (mx.getD s.buf.available_write) s.buf.available_write + 1)
        s.buf.elements s.prodIdx 0 (by omega) (by rw [hl]; exact (hidx hn).1)
      omega
    · intro hn
      obtain ⟨hp0, hc0⟩ := h0 hn
      have hav0 : s.buf.available_write = 0 := by omega
      rw [hav0]
      simp only [Nat.min_zero]
      rw [processLoop_stop _ _ _ (by omega)]
      exact ⟨hp0, hc0⟩
  | readSlices f mx hf =>
    have hb := processLoop_total_bounds (GoodW_lift hf)
      (min (mx.getD s.buf.available_read) s.buf.available_read)
      (min (mx.getD s.buf.available_read) s.buf.available_read + 1)
      s.buf.elements s.consIdx 0 (Nat.zero_le _)
    have hlen := processLoop_length (fun l o => (l, f l o))
      (min (mx.getD s.buf.available_read) s.buf.available_read)
      (min (mx.getD s.buf.available_read) s.buf.available_read + 1)
      s.buf.elements s.consIdx 0
    have havr : s.buf.available_read = s.buf.used := rfl
    unfold InvR
    unfold DirectRingBuffer.read_slices
    rw [process_slices_eq]
    dsimp only
    refine ⟨by omega, by omega, ?_, ?_⟩
    · intro hn
      refine ⟨(hidx hn).1, ?_⟩
      have := processLoop_idx_lt (fun l o => (l, f l o))
        (min (mx.getD s.buf.available_read) s.buf.available_read)
        (min (mx.getD s.buf.available_read) s.buf.available_read + 1)
        s.buf.elements s.consIdx 0 (by omega) (by rw [hl]; exact (hidx hn).2)
      omega
    · intro hn
      obtain ⟨hp0, hc0⟩ := h0 hn
      have hav0 : s.buf.available_read = 0 := by omega
      rw [hav0]
      simp only [Nat.min_zero]
      rw [processLoop_stop _ _ _ (by omega)]
      exact ⟨hp0, hc0⟩

theorem reachable_invR [Inhabited α] {n : Nat} {s : SysState α}
    (h : Reachable n s) : InvR n s := by
  unfold Reachable at h
  induction h with
  | refl => exact initState_invR α n
  | tail hsteps hstep ih => exact sysStep_invR ih hstep

/-- Claim C2 (capacity invariant): for every capacity `n` and every
single-threaded sequence of operations (with contract-respecting closures) on
the pair returned by `create_ring_buffer n`, at every point between
operations the shared counter satisfies `0 ≤ used ≤ n`, and consequently
`available_write + available_read = n`. -/
theorem claim_C2_capacity_invariant {α : Type} [Inhabited α] {n : Nat}
    {s : SysState α} (h : Reachable n s) :
    0 ≤ s.buf.used ∧ s.buf.used ≤ n ∧
    s.buf.available_write + s.buf.available_read = n := by
  obtain ⟨hl, hu, _, _⟩ := reachable_invR h
  have h1 : s.buf.available_write = s.buf.elements.length - s.buf.used := rfl
  have h2 : s.buf.available_read = s.buf.used := rfl
  exact ⟨Nat.zero_le _, hu, by omega⟩

/-- Witness for C2: the state reached after one `write_element` on a
capacity-3 buffer satisfies the capacity invariant. -/
theorem claim_C2_capacity_invariant_witness :
    0 ≤ (⟨((initState Nat 3).buf.write_element (initState Nat 3).prodIdx 7).2.1,
          ((initState Nat 3).buf.write_element (initState Nat 3).prodIdx 7).2.2,
          (initState Nat 3).consIdx⟩ : SysState Nat).buf.used ∧
    (⟨((initState Nat 3).buf.write_element (initState Nat 3).prodIdx 7).2.1,
      ((initState Nat 3).buf.write_element (initState Nat 3).prodIdx 7).2.2,
      (initState Nat 3).consIdx⟩ : SysState Nat).buf.used ≤ 3 ∧
    (⟨((initState Nat 3).buf.write_element (initState Nat 3).prodIdx 7).2.1,
      ((initState Nat 3).buf.write_element (initState Nat 3).prodIdx 7).2.2,
      (initState Nat 3).consIdx⟩ : SysState Nat).buf.available_write
      + (⟨((initState Nat 3).buf.write_element (initState Nat 3).prodIdx 7).2.1,
          ((initState Nat 3).buf.write_element (initState Nat 3).prodIdx 7).2.2,
          (initState Nat 3).consIdx⟩ : SysState Nat).buf.available_read = 3 :=
  claim_C2_capacity_invariant
    (Relation.ReflTransGen.single (SysStep.writeElem (initState Nat 3) 7))

/-- Claim C4 (early interruption): in every `process_slices` call (hence in
every `write_slices` and `read_slices` call), the returned count is the sum
of the counts reported by the closure invocations — including a final short
return — and every invocation except possibly the last one reported a full
run (`len ≤ done`); equivalently, as soon as the closure returns a count
strictly smaller than the offered run length, the loop stops and the closure
is never invoked again within that call. -/
theorem claim_C4_early_interruption {α : Type} (b : DirectRingBuffer α)
    (idx available : Nat) (f : List α → Nat → List α × Nat) (mx : Option Nat)
    (upd : Nat → Nat → Nat) :
    (DirectRingBuffer.process_slices b idx available f mx upd).total
      = ((DirectRingBuffer.process_slices b idx available f mx upd).calls.map
          CallRec.done).sum ∧
    ((DirectRingBuffer.process_slices b idx available f mx upd).calls.dropLast.all
        (fun cr => decide (cr.len ≤ cr.done))) = true := by
  rw [process_slices_eq]
  dsimp only
  constructor
  · have := processLoop_total_sum f (min (mx.getD available) available)
      (min (mx.getD available) available + 1) b.elements idx 0
    simpa using this
  · rw [List.all_eq_true]
    intro cr hcr
    rw [decide_eq_true_eq]
    exact processLoop_short_stops f (min (mx.getD available) available)
      (min (mx.getD available) available + 1) b.elements idx 0 cr hcr

/-- Claim C5 (transfer limit and no-op contract): `write_slices` and
`read_slices` compute the transfer limit as
`min (max_size.unwrap_or(available)) available`, and whenever that limit is
`0` — full buffer on write, empty buffer on read, or `max_size = some 0` —
the call returns `0`, the closure is never invoked, and the shared core and
the cursor are left unchanged (no blocking, no fault). -/
theorem claim_C5_limit_and_noop {α : Type} (b : DirectRingBuffer α) (idx : Nat)
    (f : List α → Nat → List α × Nat) (g : List α → Nat → Nat)
    (mx : Option Nat) :
    (min (mx.getD b.available_write) b.available_write = 0 →
      b.write_slices idx f mx = ⟨b, idx, 0, []⟩) ∧
    (min (mx.getD b.available_read) b.available_read = 0 →
      b.read_slices idx g mx = ⟨b, idx, 0, []⟩) := by
  constructor
  · intro h
    unfold DirectRingBuffer.write_slices
    rw [process_slices_eq, h, processLoop_stop _ _ _ (by omega)]
    rfl
  · intro h
    unfold DirectRingBuffer.read_slices
    rw [process_slices_eq, h, processLoop_stop _ _ _ (by omega)]
    rfl

/-- Witness for C5: a full capacity-2 buffer rejects a batch write as a
no-op, an empty one returns no data on a batch read, and `max_size = some 0`
is a no-op even with room available. -/
theorem claim_C5_limit_and_noop_witness :
    (⟨[5, 6], 2⟩ : DirectRingBuffer Nat).write_slices 0 (copyClosure [9]) none
      = ⟨⟨[5, 6], 2⟩, 0, 0, []⟩ ∧
    (⟨[5, 6], 0⟩ : DirectRingBuffer Nat).read_slices 0 readAllClosure none
      = ⟨⟨[5, 6], 0⟩, 0, 0, []⟩ ∧
    (⟨[5, 6], 1⟩ : DirectRingBuffer Nat).write_slices 1 (copyClosure [9])
        (some 0)
      = ⟨⟨[5, 6], 1⟩, 1, 0, []⟩ :=
  ⟨(claim_C5_limit_and_noop ⟨[5, 6], 2⟩ 0 (copyClosure [9]) readAllClosure
      none).1 (by decide),
   (claim_C5_limit_and_noop ⟨[5, 6], 0⟩ 0 (copyClosure [9]) readAllClosure
      none).2 (by decide),
   (claim_C5_limit_and_noop ⟨[5, 6], 1⟩ 1 (copyClosure [9]) readAllClosure
      (some 0)).1 (by decide)⟩

/-- Claim C10 (failure is side-effect free): whenever `write_element` returns
`false` or `read_element` returns `none`, the call leaves everything exactly
as it was — the shared core (storage contents and used counter) and the
handle's private cursor are unchanged. -/
theorem claim_C10_failure_pure {α : Type} [Inhabited α]
    (b : DirectRingBuffer α) (idx : Nat) (v : α) :
    ((b.write_element idx v).1 = false → b.write_element idx v = (false, b, idx)) ∧
    ((b.read_element idx).1 = none → b.read_element idx = (none, b, idx)) := by
  constructor
  · intro h
    by_cases hav : b.available_write = 0
    · simp [DirectRingBuffer.write_element, hav]
    · simp [DirectRingBuffer.write_element, hav] at h
  · intro h
    by_cases hav : b.available_read = 0
    · simp [DirectRingBuffer.read_element, hav]
    · simp [DirectRingBuffer.read_element, hav] at h

/-- Witness for C10: a failed write on a full capacity-1 buffer and a failed
read on an empty one leave the buffer and cursor untouched. -/
theorem claim_C10_failure_pure_witness :
    (⟨[3], 1⟩ : DirectRingBuffer Nat).write_element 0 9 = (false, ⟨[3], 1⟩, 0) ∧
    (⟨[3], 0⟩ : DirectRingBuffer Nat).read_element 0 = (none, ⟨[3], 0⟩, 0) :=
  ⟨(claim_C10_failure_pure ⟨[3], 1⟩ 0 9).1 (by decide),
   (claim_C10_failure_pure ⟨[3], 0⟩ 0 9).2 (by decide)⟩

theorem processLoop_elements_id (g : List α → Nat → Nat) (m : Nat) :
    ∀ (fuel : Nat) (e : List α) (idx t : Nat),
      (processLoop (fun s o => (s, g s o)) m fuel e idx t).elements = e := by
  intro fuel
  induction fuel with
  | zero => intro e idx t; rfl
  | succ n ih =>
    intro e idx t
    by_cases hlt : t < m
    · rw [processLoop_step _ n e idx _ _ _ hlt rfl rfl rfl]
      have hset : setSeg e idx
          (((fun (s : List α) (o : Nat) => (s, g s o))
            ((e.drop idx).take (min (e.length - idx) (m - t))) t).1) = e :=
        setSeg_drop_take _ e idx
      by_cases hbr : (((fun (s : List α) (o : Nat) => (s, g s o))
          ((e.drop idx).take (min (e.length - idx) (m - t))) t).2)
          < min (e.length - idx) (m - t)
      · rw [if_pos hbr]
        exact hset
      · rw [if_neg hbr]
        dsimp only
        rw [ih, hset]
    · rw [processLoop_stop _ _ _ hlt]

theorem copyClosure_goodW (vs : List α) : GoodW (copyClosure vs) := by
  intro s o
  constructor
  · simp only [copyClosure, List.length_append, List.length_take,
      List.length_drop]
    omega
  · simp only [copyClosure]
    omega

theorem readAllClosure_goodR : GoodR (readAllClosure (α := α)) :=
  fun s _ => Nat.le_refl s.length

/-- Claim C6 (single-element round trip): on a capacity-5 buffer, five
`write_element` calls return `true` and a sixth returns `false`; five
subsequent `read_element` calls return `some` of the original values in FIFO
order and a sixth returns `none`.  In general `write_element` returns `false`
exactly when `available_write = 0`, `read_element` returns `none` exactly
when `available_read = 0`, each call changes `used` by `+1`/`-1` exactly when
it succeeds, and a successful call transfers exactly one element (appends it
to, or removes it from the front of, the logical FIFO content). -/
theorem claim_C6_single_element :
    ((let s0 := initState Nat 5
      let r1 := s0.buf.write_element s0.prodIdx 11
      let r2 := r1.2.1.write_element r1.2.2 12
      let r3 := r2.2.1.write_element r2.2.2 13
      let r4 := r3.2.1.write_element r3.2.2 14
      let r5 := r4.2.1.write_element r4.2.2 15
      let r6 := r5.2.1.write_element r5.2.2 16
      let d1 := r6.2.1.read_element s0.consIdx
      let d2 := d1.2.1.read_element d1.2.2
      let d3 := d2.2.1.read_element d2.2.2
      let d4 := d3.2.1.read_element d3.2.2
      let d5 := d4.2.1.read_element d4.2.2
      let d6 := d5.2.1.read_element d5.2.2
      [r1.1, r2.1, r3.1, r4.1, r5.1, r6.1]
          = [true, true, true, true, true, false] ∧
      [d1.1, d2.1, d3.1, d4.1, d5.1, d6.1]
          = [some 11, some 12, some 13, some 14, some 15, none])) ∧
    (∀ (α : Type) (b : DirectRingBuffer α) (idx : Nat) (v : α),
       ((b.write_element idx v).1 = false ↔ b.available_write = 0) ∧
       (b.write_element idx v).2.1.used
         = b.used + (if (b.write_element idx v).1 then 1 else 0)) ∧
    (∀ (α : Type) (inst : Inhabited α) (b : DirectRingBuffer α) (idx : Nat),
       ((b.read_element idx).1 = none ↔ b.available_read = 0) ∧
       (b.read_element idx).2.1.used
         = b.used - (if (b.read_element idx).1.isSome then 1 else 0)) ∧
    (∀ (α : Type) (inst : Inhabited α) (s : SysState α) (v : α), InvS s →
       contentOf ⟨(s.buf.write_element s.prodIdx v).2.1,
                  (s.buf.write_element s.prodIdx v).2.2, s.consIdx⟩
         = contentOf s
             ++ (if (s.buf.write_element s.prodIdx v).1 then [v] else [])) ∧
    (∀ (α : Type) (inst : Inhabited α) (s : SysState α), InvS s →
       contentOf s
         = (match (s.buf.read_element s.consIdx).1 with
            | some v => [v]
            | none => [])
             ++ contentOf ⟨(s.buf.read_element s.consIdx).2.1, s.prodIdx,
                           (s.buf.read_element s.consIdx).2.2⟩) := by
  refine ⟨by decide, ?_, ?_, ?_, ?_⟩
  · intro α b idx v
    by_cases hav : b.available_write = 0
    · simp [DirectRingBuffer.write_element, hav]
    · simp [DirectRingBuffer.write_element, hav]
  · intro α inst b idx
    by_cases hav : b.available_read = 0
    · simp [DirectRingBuffer.read_element, hav]
    · simp [DirectRingBuffer.read_element, hav]
  · intro α inst s v h
    exact (write_element_sim s v h).2
  · intro α inst s h
    exact (read_element_sim s h).2

/-- Witness for C6: a successful `write_element` on an empty capacity-2
buffer appends exactly one element to the logical content, and a
`read_element` then removes it from the front. -/
theorem claim_C6_single_element_witness :
    (contentOf ⟨((initState Nat 2).buf.write_element (initState Nat 2).prodIdx
          7).2.1,
        ((initState Nat 2).buf.write_element (initState Nat 2).prodIdx 7).2.2,
        (initState Nat 2).consIdx⟩
      = contentOf (initState Nat 2)
          ++ (if ((initState Nat 2).buf.write_element (initState Nat 2).prodIdx
                7).1 then [7] else [])) ∧
    (((⟨[9], 1⟩ : DirectRingBuffer Nat).read_element 0).1 = none
      ↔ (⟨[9], 1⟩ : DirectRingBuffer Nat).available_read = 0) :=
  ⟨claim_C6_single_element.2.2.2.1 Nat inferInstance (initState Nat 2) 7
     (by unfold InvS; decide),
   (claim_C6_single_element.2.2.1 Nat inferInstance ⟨[9], 1⟩ 0).1⟩

/-- Claim C7 (publish exactly once, frame): every `write_slices` call updates
`used` exactly once, adding exactly the call's return value, and every
`read_slices` call subtracts exactly its return value; the read path never
modifies the storage, and the write path modifies nothing outside the
transferred slots — the storage length and the whole region holding the
not-yet-read elements are unchanged. -/
theorem claim_C7_publish_once :
    (∀ (α : Type) (b : DirectRingBuffer α) (idx : Nat)
        (f : List α → Nat → List α × Nat) (mx : Option Nat),
       (b.write_slices idx f mx).buffer.used
         = b.used + (b.write_slices idx f mx).total) ∧
    (∀ (α : Type) (b : DirectRingBuffer α) (idx : Nat)
        (g : List α → Nat → Nat) (mx : Option Nat),
       (b.read_slices idx g mx).buffer.used
         = b.used - (b.read_slices idx g mx).total) ∧
    (∀ (α : Type) (b : DirectRingBuffer α) (idx : Nat)
        (g : List α → Nat → Nat) (mx : Option Nat),
       (b.read_slices idx g mx).buffer.elements = b.elements) ∧
    (∀ (α : Type) (b : DirectRingBuffer α) (idx : Nat)
        (f : List α → Nat → List α × Nat) (mx : Option Nat),
       (b.write_slices idx f mx).buffer.elements.length = b.elements.length) ∧
    (∀ (α : Type) (inst : Inhabited α) (s : SysState α)
        (f : List α → Nat → List α × Nat) (mx : Option Nat),
       GoodW f → InvS s →
       contentAt (s.buf.write_slices s.prodIdx f mx).buffer.elements
           s.consIdx s.buf.used
         = contentAt s.buf.elements s.consIdx s.buf.used) := by
  refine ⟨?_, ?_, ?_, ?_, ?_⟩
  · intro α b idx f mx
    unfold DirectRingBuffer.write_slices
    rw [process_slices_eq]
  · intro α b idx g mx
    unfold DirectRingBuffer.read_slices
    rw [process_slices_eq]
  · intro α b idx g mx
    unfold DirectRingBuffer.read_slices
    rw [process_slices_eq]
    dsimp only
    exact processLoop_elements_id g _ _ b.elements idx 0
  · intro α b idx f mx
    unfold DirectRingBuffer.write_slices
    rw [process_slices_eq]
    dsimp only
    exact processLoop_length f _ _ b.elements idx 0
  · intro α inst s f mx hf hI
    obtain ⟨h1, h2, h3⟩ := hI
    have havw : s.buf.available_write
        = s.buf.elements.length - s.buf.used := rfl
    unfold DirectRingBuffer.write_slices
    rw [process_slices_eq]
    dsimp only
    by_cases hN : 0 < s.buf.elements.length
    · obtain ⟨hc, hp⟩ := h2 hN
      obtain ⟨H1, H2, H3, H4, H5⟩ := processLoop_inv hf s.buf.elements.length
        s.consIdx s.buf.used
        (min (mx.getD s.buf.available_write) s.buf.available_write)
        hN hc (by omega)
        (min (mx.getD s.buf.available_write) s.buf.available_write + 1)
        s.buf.elements 0 rfl (Nat.zero_le _)
      simp only [Nat.add_zero] at H1 H2 H3 H4 H5
      rw [← hp] at H5
      exact H5
    · have hav0 : s.buf.available_write = 0 := by omega
      rw [hav0]
      simp only [Nat.min_zero]
      rw [processLoop_stop _ _ _ (by omega)]

/-- Witness for C7: a batch write of two elements into an empty capacity-3
buffer leaves the (empty) consumer-owned region unchanged. -/
theorem claim_C7_publish_once_witness :
    contentAt ((initState Nat 3).buf.write_slices (initState Nat 3).prodIdx
        (copyClosure [7, 8]) none).buffer.elements
        (initState Nat 3).consIdx (initState Nat 3).buf.used
      = contentAt (initState Nat 3).buf.elements (initState Nat 3).consIdx
          (initState Nat 3).buf.used :=
  claim_C7_publish_once.2.2.2.2 Nat inferInstance (initState Nat 3)
    (copyClosure [7, 8]) none (copyClosure_goodW [7, 8])
    (by unfold InvS; decide)

/-- Claim C9 (zero-capacity degenerate case): `create_ring_buffer 0` is legal
and, in every reachable state, both availabilities are 0, every
`write_element` returns `false`, every `read_element` returns `none`, and
every `write_slices`/`read_slices` call returns 0 without invoking the
closure — no operation faults or blocks. -/
theorem claim_C9_zero_capacity {α : Type} [Inhabited α] {s : SysState α}
    (h : Reachable 0 s) :
    s.buf.available_write = 0 ∧ s.buf.available_read = 0 ∧
    (∀ v : α, (s.buf.write_element s.prodIdx v).1 = false) ∧
    (s.buf.read_element s.consIdx).1 = none ∧
    (∀ (f : List α → Nat → List α × Nat) (mx : Option Nat),
       (s.buf.write_slices s.prodIdx f mx).total = 0 ∧
       (s.buf.write_slices s.prodIdx f mx).calls = []) ∧
    (∀ (g : List α → Nat → Nat) (mx : Option Nat),
       (s.buf.read_slices s.consIdx g mx).total = 0 ∧
       (s.buf.read_slices s.consIdx g mx).calls = []) := by
  obtain ⟨hl, hu, _, _⟩ := reachable_invR h
  have hu0 : s.buf.used = 0 := by omega
  have hw : s.buf.available_write = 0 := by
    unfold DirectRingBuffer.available_write
    omega
  have hr : s.buf.available_read = 0 := hu0
  refine ⟨hw, hr, ?_, ?_, ?_, ?_⟩
  · intro v
    simp [DirectRingBuffer.write_element, hw]
  · simp [DirectRingBuffer.read_element, hr]
  · intro f mx
    unfold DirectRingBuffer.write_slices
    rw [process_slices_eq, hw]
    simp only [Nat.min_zero]
    rw [processLoop_stop _ _ _ (by omega)]
    exact ⟨rfl, rfl⟩
  · intro g mx
    unfold DirectRingBuffer.read_slices
    rw [process_slices_eq, hr]
    simp only [Nat.min_zero]
    rw [processLoop_stop _ _ _ (by omega)]
    exact ⟨rfl, rfl⟩

/-- Witness for C9: the freshly created zero-capacity buffer reports zero
availability, rejects a single-element write, and performs a batch write as
a no-op without invoking the closure. -/
theorem claim_C9_zero_capacity_witness :
    (initState Nat 0).buf.available_write = 0 ∧
    ((initState Nat 0).buf.write_element (initState Nat 0).prodIdx 7).1
      = false ∧
    ((initState Nat 0).buf.write_slices (initState Nat 0).prodIdx
        (copyClosure [7]) none).calls = [] :=
  ⟨(claim_C9_zero_capacity Relation.ReflTransGen.refl).1,
   (claim_C9_zero_capacity Relation.ReflTransGen.refl).2.2.1 7,
   ((claim_C9_zero_capacity Relation.ReflTransGen.refl).2.2.2.2.1
     (copyClosure [7]) none).2⟩

theorem processLoop_calls_nil {f : List α → Nat → List α × Nat} {m t : Nat}
    (fuel : Nat) (e : List α) (idx : Nat) (h : ¬ t < m) :
    (processLoop f m fuel e idx t).calls = [] := by
  rw [processLoop_stop fuel e idx h]

theorem processLoop_calls_le_one {f : List α → Nat → List α × Nat}
    (hf : GoodW f) (m : Nat) :
    ∀ (fuel : Nat) (e : List α) (t : Nat), m ≤ e.length + t →
      (processLoop f m fuel e 0 t).calls.length ≤ 1 := by
  intro fuel
  cases fuel with
  | zero => intro e t _; simp [processLoop]
  | succ n =>
    intro e t hme
    by_cases hlt : t < m
    · rw [processLoop_step f n e 0 _ _ _ hlt rfl rfl rfl]
      have hres2 := (hf ((e.drop 0).take (min (e.length - 0) (m - t))) t).2
      have hsl : ((e.drop 0).take (min (e.length - 0) (m - t))).length
          = min (min (e.length - 0) (m - t)) e.length := by
        simp [List.length_take, List.length_drop]
      rw [hsl] at hres2
      by_cases hbr : (f ((e.drop 0).take (min (e.length - 0) (m - t))) t).2
          < min (e.length - 0) (m - t)
      · rw [if_pos hbr]
        simp
      · rw [if_neg hbr]
        dsimp only
        rw [processLoop_calls_nil _ _ _ (by omega)]
        simp
    · rw [processLoop_stop _ _ _ hlt]
      simp

theorem processLoop_calls_le_two {f : List α → Nat → List α × Nat}
    (hf : GoodW f) (m : Nat) :
    ∀ (fuel : Nat) (e : List α) (idx t : Nat), idx < e.length →
      m ≤ e.length + t →
      (processLoop f m fuel e idx t).calls.length ≤ 2 := by
  intro fuel
  cases fuel with
  | zero => intro e idx t _ _; simp [processLoop]
  | succ n =>
    intro e idx t hidx hme
    by_cases hlt : t < m
    · rw [processLoop_step f n e idx _ _ _ hlt rfl rfl rfl]
      have hres2 := (hf ((e.drop idx).take (min (e.length - idx) (m - t))) t).2
      have hsl : ((e.drop idx).take (min (e.length - idx) (m - t))).length
          = min (min (e.length - idx) (m - t)) (e.length - idx) := by
        simp [List.length_take, List.length_drop]
      rw [hsl] at hres2
      by_cases hbr : (f ((e.drop idx).take (min (e.length - idx) (m - t))) t).2
          < min (e.length - idx) (m - t)
      · rw [if_pos hbr]
        simp
      · rw [if_neg hbr]
        dsimp only
        rcases Nat.le_total (e.length - idx) (m - t) with hcase | hcase
        · have hidx0 : wraparound_index e.length idx
              (f ((e.drop idx).take (min (e.length - idx) (m - t))) t).2 = 0 := by
            unfold DirectRingBuffer.wraparound_index
            rw [if_pos (by omega)]
          rw [hidx0]
          have hrec := processLoop_calls_le_one hf m n
            (setSeg e idx
              (f ((e.drop idx).take (min (e.length - idx) (m - t))) t).1)
            (t + (f ((e.drop idx).take (min (e.length - idx) (m - t))) t).2)
            (by rw [setSeg_length]; omega)
          simp only [List.length_cons]
          omega
        · rw [processLoop_calls_nil _ _ _ (by omega)]
          simp
    · rw [processLoop_stop _ _ _ hlt]
      simp

/-- Claim C3 counterexample: the generic scenario of the claim fails on the
code.  On capacity 10, writing 10 elements (the full capacity) wraps the
producer cursor back to 0; after reading k = 3 elements, writing k = 3 more
invokes the closure exactly once, with offset 0 and run length 3 — not twice
with offsets 0 and capacity-k. -/
theorem claim_C3_counterexample :
    (let s0 := initState Nat 10
     let s1 := (stepOp s0 (Op.writeSlices [1, 2, 3, 4, 5, 6, 7, 8, 9, 10]
       none)).1
     let s2 := (stepOp s1 (Op.readSlices (some 3))).1
     let w := s2.buf.write_slices s2.prodIdx (copyClosure [91, 92, 93]) none
     w.calls.map (fun cr => (cr.off, cr.len)) = [(0, 3)] ∧
       ¬ w.calls.length = 2) := by
  decide

/-- Claim C3 (amended — wraparound split): a batch write whose transfer
straddles the physical end of storage is split into two contiguous runs,
tail then head.  Concretely, on capacity 10, after writing
`[10,20,30,40,50]` and reading 3 elements (which yields `[10,20,30]`), a
`write_slices` of 8 elements `[60..130]` invokes the closure exactly twice,
with (offset 0, length 5) then (offset 5, length 3), and a subsequent read
of 10 yields `[40,50,60,70,80,90,100,110,120,130]`.  In every batch call
from a reachable state, the closure is invoked at most twice. -/
theorem claim_C3_wraparound_split :
    ((let s0 := initState Nat 10
      let r1 := stepOp s0 (Op.writeSlices [10, 20, 30, 40, 50] none)
      let r2 := stepOp r1.1 (Op.readSlices (some 3))
      let w := r2.1.buf.write_slices r2.1.prodIdx
        (copyClosure [60, 70, 80, 90, 100, 110, 120, 130]) none
      let s3 : SysState Nat := ⟨w.buffer, w.idx, r2.1.consIdx⟩
      let r4 := stepOp s3 (Op.readSlices none)
      r2.2.2 = [10, 20, 30] ∧
      w.total = 8 ∧
      w.calls.map (fun cr => (cr.off, cr.len, cr.done))
          = [(0, 5, 5), (5, 3, 3)] ∧
      r4.2.2 = [40, 50, 60, 70, 80, 90, 100, 110, 120, 130])) ∧
    (∀ (α : Type) (inst : Inhabited α) (n : Nat) (s : SysState α)
        (f : List α → Nat → List α × Nat) (g : List α → Nat → Nat)
        (mx : Option Nat), Reachable n s → GoodW f → GoodR g →
       (s.buf.write_slices s.prodIdx f mx).calls.length ≤ 2 ∧
       (s.buf.read_slices s.consIdx g mx).calls.length ≤ 2) := by
  constructor
  · decide
  · intro α inst n s f g mx h hf hg
    obtain ⟨hl, hu, hidx, h0⟩ := reachable_invR h
    have havw : s.buf.available_write
        = s.buf.elements.length - s.buf.used := rfl
    have havr : s.buf.available_read = s.buf.used := rfl
    by_cases hn : 0 < n
    · constructor
      · unfold DirectRingBuffer.write_slices
        rw [process_slices_eq]
        exact processLoop_calls_le_two hf _ _ s.buf.elements s.prodIdx 0
          (by rw [hl]; exact (hidx hn).1) (by omega)
      · unfold DirectRingBuffer.read_slices
        rw [process_slices_eq]
        exact processLoop_calls_le_two (GoodW_lift hg) _ _ s.buf.elements
          s.consIdx 0 (by rw [hl]; exact (hidx hn).2) (by omega)
    · have hl0 : s.buf.elements.length = 0 := by omega
      have hu0 : s.buf.used = 0 := by omega
      constructor
      · unfold DirectRingBuffer.write_slices
        rw [process_slices_eq]
        dsimp only
        rw [processLoop_calls_nil _ _ _ (by omega)]
        simp
      · unfold DirectRingBuffer.read_slices
        rw [process_slices_eq]
        dsimp only
        rw [processLoop_calls_nil _ _ _ (by omega)]
        simp

/-- Witness for the amended C3: on a fresh capacity-4 buffer, a batch write
and a batch read each invoke their closure at most twice. -/
theorem claim_C3_wraparound_split_witness :
    ((initState Nat 4).buf.write_slices (initState Nat 4).prodIdx
        (copyClosure [1, 2]) none).calls.length ≤ 2 ∧
    ((initState Nat 4).buf.read_slices (initState Nat 4).consIdx
        readAllClosure none).calls.length ≤ 2 :=
  claim_C3_wraparound_split.2 Nat inferInstance 4 (initState Nat 4)
    (copyClosure [1, 2]) readAllClosure none Relation.ReflTransGen.refl
    (copyClosure_goodW [1, 2]) readAllClosure_goodR

/-- Claim C8 counterexample: for capacity 0 the claim "each handle's cursor
index lies in 0..N" fails — the initial state of `create_ring_buffer 0` is
reachable, its producer cursor is 0, and 0 is not a valid slot index into
storage of capacity 0. -/
theorem claim_C8_counterexample :
    Reachable 0 (initState Nat 0) ∧
    (initState Nat 0).prodIdx = 0 ∧
    ¬ ((initState Nat 0).prodIdx
        < (initState Nat 0).buf.elements.length) :=
  ⟨Relation.ReflTransGen.refl, rfl, by decide⟩

/-- Claim C8 (amended — cursor advance and range): the cursor-advance
function used after each run, `wraparound_index`, agrees with
`(cursor + done) % capacity` whenever the advance stays within one run
(`cursor + done ≤ capacity`, which holds when the closure returns at most
the offered length); and for every capacity `n > 0` and every reachable
state, each handle's cursor lies in `0..n`. -/
theorem claim_C8_cursor_range :
    (∀ (len idx d : Nat), 0 < len → idx + d ≤ len →
       DirectRingBuffer.wraparound_index len idx d = (idx + d) % len) ∧
    (∀ (α : Type) (inst : Inhabited α) (n : Nat) (s : SysState α),
       Reachable n s → 0 < n → s.prodIdx < n ∧ s.consIdx < n) := by
  constructor
  · intro len idx d h1 h2
    exact wraparound_eq_mod h1 h2
  · intro α inst n s h hn
    exact (reachable_invR h).2.2.1 hn

/-- Witness for the amended C8: `wraparound_index` agrees with the modular
advance at capacity 5, cursor 3, advance 2, and the cursors of the initial
capacity-5 state are in range. -/
theorem claim_C8_cursor_range_witness :
    DirectRingBuffer.wraparound_index 5 3 2 = (3 + 2) % 5 ∧
    ((initState Nat 5).prodIdx < 5 ∧ (initState Nat 5).consIdx < 5) :=
  ⟨claim_C8_cursor_range.1 5 3 2 (by decide) (by decide),
   claim_C8_cursor_range.2 Nat inferInstance 5 (initState Nat 5)
     Relation.ReflTransGen.refl (by decide)⟩
